import Mathlib

/-!
# Verification of `P1.cpp`

`P1.cpp` holds one function, `reverseString`, and a `main` that prompts for an
alphabet and a length limit, reads both with `cin >>`, and prints the reversed
alphabet.

The embedding is shallow.  A C++ `char` is a byte, a `std::string` is the list
of its bytes.  Iterators into a buffer are integer offsets from `begin()`;
dereferencing one outside `[0, size)` has no result (`none`).  Loops are
defined by well-founded recursion, so every definition below is a total,
computable function and `none` only ever means an out-of-range access.
-/

namespace P1

/-! ## Data model -/

/-- One C++ `char`: a byte. -/
abbrev CChar := Fin 256

/-- The value of a `std::string`: its bytes in order. -/
abbrev CString := List CChar

/-! ## `std::iter_swap` and `std::reverse` (random-access iterators) -/

/-- The call `std::iter_swap(first, last)` on iterators into `buf`: both are read and
both are written, so both must point at an element of `buf`. -/
def iter_swap (buf : CString) (first last : Int) : Option CString :=
  if 0 ≤ first ∧ first < buf.length ∧ 0 ≤ last ∧ last < buf.length then
    match buf[first.toNat]?, buf[last.toNat]? with
    | some a, some b => some ((buf.set first.toNat b).set last.toNat a)
    | _, _ => none
  else none

/-- The loop of `std::reverse` as libstdc++ writes it for random-access iterators:
`while (first < last) { std::iter_swap(first, last); ++first; --last; }`. -/
def reverseLoop (buf : CString) (first last : Int) : Option CString :=
  if first < last then
    match iter_swap buf first last with
    | some buf1 => reverseLoop buf1 (first + 1) (last - 1)
    | none => none
  else some buf
termination_by (last - first).toNat
decreasing_by omega

/-- The call `std::reverse(first, last)` for random-access iterators into `buf`:
`if (first == last) return; --last;` and then the swap loop. -/
def reverse (buf : CString) (first last : Int) : Option CString :=
  if first = last then some buf
  else reverseLoop buf first (last - 1)

/-! ## `reverseString` -/

/-- The variables of one call of `reverseString`: the caller's string, bound through
`const string&`, and the local `reversed`. -/
structure Frame where
  str : CString
  reversed : CString
deriving DecidableEq, Repr

/-- The body of `reverseString` up to its `return`:
`string reversed = str; reverse(reversed.begin(), reversed.end());`
where `begin()` is offset `0` and `end()` is offset `size()`. -/
def reverseStringBody (str : CString) : Option Frame :=
  let fr : Frame := { str := str, reversed := str }
  match reverse fr.reversed 0 fr.reversed.length with
  | some buf => some { fr with reversed := buf }
  | none => none

/-- The function `string reverseString(const string& str)`: the body, then
`return reversed;`. -/
def reverseString (str : CString) : Option CString :=
  match reverseStringBody str with
  | some fr => some fr.reversed
  | none => none

/-! ## The standard streams -/

/-- A narrow string literal of the source file: its bytes (the file is UTF-8). -/
def lit (s : String) : CString := s.toUTF8.data.toList.map (fun b => b.val)

/-- The manipulator `endl`: a newline byte (and a flush, which writes nothing). -/
def endl : CString := [10]

/-- The classification `std::isspace` of the classic "C" locale, which `cin` uses to
delimit tokens: space, `\t`, `\n`, `\v`, `\f`, `\r`. -/
def isspace (c : CChar) : Bool := c.val = 32 || (9 ≤ c.val && c.val ≤ 13)

/-- State of `cin`: the bytes of standard input not yet consumed and the two state
flags that reading can set. -/
structure istream where
  unread : CString
  eofbit : Bool
  failbit : Bool
deriving DecidableEq, Repr

/-- The test `good()`: no state flag is set. -/
def istream.good (is : istream) : Bool := !is.eofbit && !is.failbit

/-- The input sentry that every formatted read constructs first.  On a good stream it
skips leading whitespace, and reaching the end of input while doing so sets `eofbit`.
The sentry holds when the stream is still good; otherwise `failbit` is set. -/
def sentry (is : istream) : istream × Bool :=
  if is.good then
    let rest := is.unread.dropWhile isspace
    if rest.isEmpty then ({ unread := rest, eofbit := true, failbit := true }, false)
    else ({ is with unread := rest }, true)
  else ({ is with failbit := true }, false)

/-- The read `is >> str` into a `std::string`.  When the sentry holds, `str` is erased
and bytes are appended to it up to the next whitespace byte or the end of input;
reaching the end sets `eofbit`.  Reading no byte sets `failbit` and, when the sentry
did not hold, leaves `str` as it was.  The field width is 0 here, so the only other
limit on the token is `max_size()`, which no string held in memory reaches. -/
def extract (is : istream) (str : CString) : istream × CString :=
  match sentry is with
  | (is1, true) =>
    let token := is1.unread.takeWhile (fun c => !isspace c)
    let rest := is1.unread.dropWhile (fun c => !isspace c)
    ({ unread := rest, eofbit := is1.eofbit || rest.isEmpty,
       failbit := is1.failbit || token.isEmpty }, token)
  | (is1, false) => ({ is1 with failbit := true }, str)

/-! ## `main` -/

/-- The streams, the global `isPalindrome` and the local variables of `main`. -/
structure State where
  cin : istream
  cout : CString
  isPalindrome : CString
  alfabeto : CString
  longitud : CString
  input : CString
deriving DecidableEq, Repr

/-- What a run of the program leaves behind: the bytes written to standard output and
the exit code. -/
structure Run where
  stdout : CString
  exitCode : Int
deriving DecidableEq, Repr

/-- The function `main`, run on the bytes `stdin` of standard input.  Writing to `cout`
appends to the bytes written so far. -/
def main (stdin : CString) : Option Run :=
  -- string isPalindrome; string alfabeto; string longitud; string input;
  let st : State :=
    { cin := { unread := stdin, eofbit := false, failbit := false }, cout := [],
      isPalindrome := [], alfabeto := [], longitud := [], input := [] }
  -- cout << "Ingresa un alfabeto: ";
  let st := { st with cout := st.cout ++ lit "Ingresa un alfabeto: " }
  -- cin >> alfabeto;
  let r := extract st.cin st.alfabeto
  let st := { st with cin := r.1, alfabeto := r.2 }
  -- cout << "Ingresa el límite de longitud de los palíndromos: ";
  let st := { st with cout := st.cout ++ lit "Ingresa el límite de longitud de los palíndromos: " }
  -- cin >> longitud;
  let r := extract st.cin st.longitud
  let st := { st with cin := r.1, longitud := r.2 }
  -- string reversedAlfabeto = reverseString(alfabeto);
  match reverseString st.alfabeto with
  | none => none
  | some reversedAlfabeto =>
    -- cout << "Alfabeto invertido: " << reversedAlfabeto << endl;
    let st := { st with cout := st.cout ++ lit "Alfabeto invertido: " ++ reversedAlfabeto ++ endl }
    -- return 0;
    some { stdout := st.cout, exitCode := 0 }

/-! ## Shapes of standard input -/

/-- A run of whitespace bytes (possibly empty). -/
def isBlank (ws : CString) : Bool := ws.all isspace

/-- A whitespace-delimited token: at least one byte, none of them whitespace. -/
def isToken (t : CString) : Bool := !t.isEmpty && t.all (fun c => !isspace c)

/-- What may follow a token on standard input: nothing, or text that begins with a
whitespace byte. -/
def startsBlank : CString → Bool
  | [] => true
  | c :: _ => isspace c

/-! ## The algorithm and the reference definition as the specification words them -/

/-- The loop of the specification's algorithm, in its words: swap positions `lo` and `hi`
of the copy, advance `lo` and retreat `hi`, "until pointers meet or cross".  The
original `input` is carried along so that its final value can be observed.  The result
is the pair of the original and the copy when the loop stops. -/
def twoPointerLoop (input copy : CString) (lo hi : Int) : Option (CString × CString) :=
  if lo < hi then
    match iter_swap copy lo hi with
    | some copy1 => twoPointerLoop input copy1 (lo + 1) (hi - 1)
    | none => none
  else some (input, copy)
termination_by (hi - lo).toNat
decreasing_by omega

/-- The specification's algorithm: "two-pointer in-place swap over a copy of the input",
started at `lo = 0` and `hi = length - 1`. -/
def twoPointerReverse (s : CString) : Option (CString × CString) :=
  twoPointerLoop s s 0 ((s.length : Int) - 1)

/-- The specification's reference definition of the output: the sequence of the same
length with `output[i] = input[length-1-i]`. -/
def refReverse (s : CString) : CString :=
  List.ofFn (fun i : Fin s.length => s.get ⟨s.length - 1 - i.val, by omega⟩)

/-! ## Correctness of the swap loop -/

theorem getElem?_append_cons (pre post : CString) (a : CChar) :
    (pre ++ a :: post)[pre.length]? = some a := by
  induction pre with
  | nil => simp
  | cons x xs ih => simpa using ih

theorem set_append_cons (pre post : CString) (a b : CChar) :
    (pre ++ a :: post).set pre.length b = pre ++ b :: post := by
  simp

theorem iter_swap_append (pre mid post : CString) (a b : CChar) :
    iter_swap (pre ++ a :: (mid ++ b :: post)) pre.length (pre.length + mid.length + 1)
      = some (pre ++ b :: (mid ++ a :: post)) := by
  have h1 : (pre ++ a :: (mid ++ b :: post))[pre.length]? = some a :=
    getElem?_append_cons pre _ a
  have h2 : (pre ++ a :: (mid ++ b :: post))[pre.length + mid.length + 1]? = some b := by
    have := getElem?_append_cons (pre ++ a :: mid) post b
    simpa [Nat.add_assoc] using this
  have e1 : ((pre.length : Int)).toNat = pre.length := by simp
  have e2 : ((pre.length : Int) + mid.length + 1).toNat = pre.length + mid.length + 1 := by
    omega
  have s1 : (pre ++ a :: (mid ++ b :: post)).set pre.length b = pre ++ b :: (mid ++ b :: post) :=
    set_append_cons pre _ a b
  have s2 : (pre ++ b :: (mid ++ b :: post)).set (pre.length + mid.length + 1) a
      = pre ++ b :: (mid ++ a :: post) := by
    have h := set_append_cons (pre ++ b :: mid) post b a
    rw [List.length_append, List.length_cons, ← Nat.add_assoc] at h
    simpa only [List.append_assoc, List.cons_append] using h
  unfold iter_swap
  rw [if_pos (by simp; omega), e1, e2, h1, h2]
  simp only [s1, s2]

/-- Run from a state in which `first` and `last` delimit the block `mid`, the loop
reverses `mid` in place and leaves what is before and after it alone. -/
theorem reverseLoop_append (mid : CString) :
    ∀ pre post : CString,
      reverseLoop (pre ++ (mid ++ post)) pre.length (pre.length + mid.length - 1)
        = some (pre ++ (mid.reverse ++ post)) := by
  induction mid using List.bidirectionalRec with
  | nil =>
    intro pre post
    rw [reverseLoop, if_neg (by simp)]
    simp
  | singleton a =>
    intro pre post
    rw [reverseLoop, if_neg (by simp)]
    simp
  | cons_append a l b ih =>
    intro pre post
    have hlast : (pre.length : Int) + ((a :: (l ++ [b])).length : Nat) - 1
        = (pre.length : Int) + l.length + 1 := by
      simp only [List.length_cons, List.length_append, List.length_nil]
      omega
    have hbuf : pre ++ (a :: (l ++ [b]) ++ post) = pre ++ a :: (l ++ b :: post) := by simp
    rw [hlast, hbuf, reverseLoop, if_pos (by omega), iter_swap_append]
    have hnext := ih (pre ++ [b]) (a :: post)
    have e1 : (((pre ++ [b]).length : Nat) : Int) = (pre.length : Int) + 1 := by simp
    have e2 : (pre.length : Int) + l.length + 1 - 1 = (pre.length : Int) + 1 + l.length - 1 := by
      omega
    have hb : pre ++ [b] ++ (l ++ a :: post) = pre ++ b :: (l ++ a :: post) := by simp
    rw [e1, hb] at hnext
    simp only []
    rw [e2, hnext]
    simp

theorem reverse_eq (buf : CString) : reverse buf 0 buf.length = some buf.reverse := by
  unfold reverse
  by_cases h : (0 : Int) = buf.length
  · rw [if_pos h]
    have : buf = [] := by
      cases buf with
      | nil => rfl
      | cons x xs => simp at h; omega
    simp [this]
  · rw [if_neg h]
    have := reverseLoop_append buf [] []
    simpa using this

theorem reverseStringBody_eq (str : CString) :
    reverseStringBody str = some { str := str, reversed := str.reverse } := by
  simp [reverseStringBody, reverse_eq]

theorem reverseString_eq (str : CString) : reverseString str = some str.reverse := by
  simp [reverseString, reverseStringBody_eq]

/-! ## Reading a token -/

theorem dropWhile_blank (ws t : CString) (hws : isBlank ws = true) :
    (ws ++ t).dropWhile isspace = t.dropWhile isspace := by
  induction ws with
  | nil => rfl
  | cons c cs ih =>
    simp only [isBlank, List.all_cons, Bool.and_eq_true] at hws
    simp only [List.cons_append, List.dropWhile_cons, hws.1, if_true]
    exact ih (by simpa [isBlank] using hws.2)

theorem takeWhile_token (t rest : CString) (ht : t.all (fun c => !isspace c) = true)
    (hrest : startsBlank rest = true) :
    (t ++ rest).takeWhile (fun c => !isspace c) = t
      ∧ (t ++ rest).dropWhile (fun c => !isspace c) = rest := by
  induction t with
  | nil =>
    cases rest with
    | nil => simp
    | cons c cs =>
      simp only [startsBlank] at hrest
      simp [List.takeWhile_cons, List.dropWhile_cons, hrest]
  | cons c cs ih =>
    simp only [List.all_cons, Bool.and_eq_true] at ht
    have := ih ht.2
    simp [List.takeWhile_cons, List.dropWhile_cons, ht.1, this.1, this.2]

/-- Reading from a fresh stream whose input is blanks, then a token, then something
that starts blank (or nothing) yields exactly the token and stops right after it. -/
theorem extract_token (ws t rest str : CString) (hws : isBlank ws = true)
    (ht : isToken t = true) (hrest : startsBlank rest = true) :
    extract { unread := ws ++ t ++ rest, eofbit := false, failbit := false } str
      = ({ unread := rest, eofbit := rest.isEmpty, failbit := false }, t) := by
  simp only [isToken, Bool.and_eq_true] at ht
  obtain ⟨hne, hall⟩ := ht
  cases t with
  | nil => simp at hne
  | cons c cs =>
    have hc : isspace c = false := by
      simp only [List.all_cons, Bool.and_eq_true] at hall
      simpa using hall.1
    have hdrop : (ws ++ (c :: cs) ++ rest).dropWhile isspace = c :: cs ++ rest := by
      rw [List.append_assoc, dropWhile_blank _ _ hws]
      simp [List.dropWhile_cons, hc]
    have htw := takeWhile_token (c :: cs) rest hall hrest
    simp only [extract, sentry, istream.good, hdrop]
    simp only [List.cons_append] at htw
    simp [htw.1, htw.2]

/-- The output of `main` is decided by the first token read. -/
theorem main_eq (stdin : CString) :
    main stdin = some
      { stdout := lit "Ingresa un alfabeto: "
          ++ lit "Ingresa el límite de longitud de los palíndromos: "
          ++ lit "Alfabeto invertido: "
          ++ (extract { unread := stdin, eofbit := false, failbit := false } []).2.reverse
          ++ endl,
        exitCode := 0 } := by
  simp [main, reverseString_eq]

/-! ## The specification's algorithm against the code -/

theorem twoPointerLoop_eq (input copy : CString) (lo hi : Int) :
    twoPointerLoop input copy lo hi = (reverseLoop copy lo hi).map (fun c => (input, c)) := by
  induction copy, lo, hi using reverseLoop.induct with
  | case1 buf first last h buf1 hsw ih =>
    rw [twoPointerLoop, reverseLoop, if_pos h, if_pos h, hsw]
    exact ih
  | case2 buf first last h hsw =>
    rw [twoPointerLoop, reverseLoop, if_pos h, if_pos h, hsw]
    rfl
  | case3 buf first last h =>
    rw [twoPointerLoop, reverseLoop, if_neg h, if_neg h]
    rfl

theorem twoPointerReverse_eq (s : CString) : twoPointerReverse s = some (s, s.reverse) := by
  have h : reverseLoop s 0 ((s.length : Int) - 1) = some s.reverse := by
    simpa using reverseLoop_append s [] []
  rw [twoPointerReverse, twoPointerLoop_eq, h]
  rfl

theorem refReverse_eq (s : CString) : refReverse s = s.reverse := by
  apply List.ext_getElem
  · simp [refReverse]
  · intro i h1 h2
    simp [refReverse, List.getElem_reverse]

theorem startsBlank_append (sep l : CString) (hsep : isBlank sep = true) (hne : sep ≠ []) :
    startsBlank (sep ++ l) = true := by
  cases sep with
  | nil => exact absurd rfl hne
  | cons c cs =>
    simp only [isBlank, List.all_cons, Bool.and_eq_true] at hsep
    simpa [startsBlank] using hsep.1

/-- On input made of blanks, a token `a`, at least one blank and then anything, `main`
prints the two prompts and the reversed token and exits with 0. -/
theorem main_token (ws a sep l : CString) (hws : isBlank ws = true) (ha : isToken a = true)
    (hsep : isBlank sep = true) (hne : sep ≠ []) :
    main (ws ++ a ++ sep ++ l) = some
      { stdout := lit "Ingresa un alfabeto: "
          ++ lit "Ingresa el límite de longitud de los palíndromos: "
          ++ (lit "Alfabeto invertido: " ++ a.reverse ++ endl),
        exitCode := 0 } := by
  have hshape : ws ++ a ++ sep ++ l = ws ++ a ++ (sep ++ l) := by simp
  rw [main_eq, hshape, extract_token ws a (sep ++ l) [] hws ha (startsBlank_append sep l hsep hne)]
  simp

theorem iter_swap_eq_none (buf : CString) (first last : Int) :
    iter_swap buf first last = none
      ↔ ¬ (0 ≤ first ∧ first < buf.length ∧ 0 ≤ last ∧ last < buf.length) := by
  unfold iter_swap
  by_cases h : 0 ≤ first ∧ first < buf.length ∧ 0 ≤ last ∧ last < buf.length
  · rw [if_pos h]
    have h1 : first.toNat < buf.length := by omega
    have h2 : last.toNat < buf.length := by omega
    rw [List.getElem?_eq_getElem h1, List.getElem?_eq_getElem h2]
    simp [h]
  · rw [if_neg h]
    simp [h]

/-! ## The claims -/

/-- Claim C1: for every string `s` and every index `i` below its length, `reverseString`
returns a string whose byte at position `i` is the byte of `s` at position
`length s - 1 - i`. -/
theorem reverseString_index (s : CString) (i : Nat) (hi : i < s.length) :
    ∃ r c, reverseString s = some r ∧ r[i]? = some c ∧ s[s.length - 1 - i]? = some c := by
  have hj : s.length - 1 - i < s.length := by omega
  refine ⟨s.reverse, s.get ⟨s.length - 1 - i, hj⟩, reverseString_eq s, ?_, ?_⟩
  · rw [List.getElem?_reverse hi, List.getElem?_eq_getElem hj]
    rfl
  · rw [List.getElem?_eq_getElem hj]
    rfl

theorem reverseString_index_witness :
    1 < ([97, 98, 99] : CString).length
      ∧ ∃ r c, reverseString [97, 98, 99] = some r ∧ r[1]? = some c
          ∧ ([97, 98, 99] : CString)[([97, 98, 99] : CString).length - 1 - 1]? = some c :=
  ⟨by decide, reverseString_index [97, 98, 99] 1 (by decide)⟩

/-- Claim C2: reversal is an involution: `reverseString` applied to the result of
`reverseString s` gives back `s`. -/
theorem reverseString_involution (s : CString) :
    ∃ r, reverseString s = some r ∧ reverseString r = some s := by
  refine ⟨s.reverse, reverseString_eq s, ?_⟩
  rw [reverseString_eq, List.reverse_reverse]

/-- Claim C3: the result of `reverseString s` has the same multiset of bytes as `s`: it
is a permutation of `s`, and every byte occurs equally often in both. -/
theorem reverseString_multiset (s : CString) :
    ∃ r, reverseString s = some r ∧ (↑r : Multiset CChar) = ↑s ∧ r.Perm s
      ∧ ∀ c : CChar, r.count c = s.count c := by
  refine ⟨s.reverse, reverseString_eq s, ?_, List.reverse_perm s, ?_⟩
  · exact Multiset.coe_reverse s
  · intro c
    exact (List.reverse_perm s).count_eq c

/-- Claim C4: the result of `reverseString s` has the length of `s`. -/
theorem reverseString_length (s : CString) :
    ∃ r, reverseString s = some r ∧ r.length = s.length :=
  ⟨s.reverse, reverseString_eq s, List.length_reverse s⟩

/-- Claim C5: `reverseString` is total.  The swap loop is defined by well-founded
recursion on `last - first`, so it terminates; a swap has no result exactly when one of
its two positions is outside the buffer; and on every string, the empty one included,
the call has a result, so no swap ever left the buffer. -/
theorem reverseString_total :
    (∀ (buf : CString) (first last : Int), iter_swap buf first last = none
        ↔ ¬ (0 ≤ first ∧ first < buf.length ∧ 0 ≤ last ∧ last < buf.length))
      ∧ (∀ s : CString, ∃ r, reverseString s = some r)
      ∧ ∃ r, reverseString [] = some r :=
  ⟨iter_swap_eq_none, fun s => ⟨s.reverse, reverseString_eq s⟩, ⟨[], reverseString_eq []⟩⟩

/-- Claim C6: edge cases and the concrete scenarios.  The empty string gives the empty
string, a one-byte string is returned unchanged, and "abc", "hello", "aabb" give "cba",
"olleh", "bbaa". -/
theorem reverseString_examples :
    reverseString [] = some []
      ∧ (∀ c : CChar, reverseString [c] = some [c])
      ∧ reverseString (lit "abc") = some (lit "cba")
      ∧ reverseString (lit "hello") = some (lit "olleh")
      ∧ reverseString (lit "aabb") = some (lit "bbaa") := by
  refine ⟨reverseString_eq [], fun c => reverseString_eq [c], ?_, ?_, ?_⟩ <;>
    rw [reverseString_eq] <;> decide

/-- Claim C7: when standard input holds an alphabet token `a` and, after at least one
blank, a length limit `l` (any bytes, so any token), the program writes the two prompts
and then exactly "Alfabeto invertido: ", the result of `reverseString a` and a newline,
and exits with code 0. -/
theorem main_output (ws a sep l : CString) (hws : isBlank ws = true) (ha : isToken a = true)
    (hsep : isBlank sep = true) (hne : sep ≠ []) :
    ∃ r, reverseString a = some r
      ∧ main (ws ++ a ++ sep ++ l) = some
          { stdout := lit "Ingresa un alfabeto: "
              ++ lit "Ingresa el límite de longitud de los palíndromos: "
              ++ (lit "Alfabeto invertido: " ++ r ++ [10]),
            exitCode := 0 } :=
  ⟨a.reverse, reverseString_eq a, main_token ws a sep l hws ha hsep hne⟩

theorem main_output_witness :
    isBlank [] = true ∧ isToken [97, 98, 99] = true ∧ isBlank [10] = true
      ∧ ([10] : CString) ≠ []
      ∧ ∃ r, reverseString [97, 98, 99] = some r
          ∧ main ([] ++ [97, 98, 99] ++ [10] ++ [51, 10]) = some
              { stdout := lit "Ingresa un alfabeto: "
                  ++ lit "Ingresa el límite de longitud de los palíndromos: "
                  ++ (lit "Alfabeto invertido: " ++ r ++ [10]),
                exitCode := 0 } :=
  ⟨by decide, by decide, by decide, by decide,
    main_output [] [97, 98, 99] [10] [51, 10] (by decide) (by decide) (by decide) (by decide)⟩

/-- Claim C8: the length limit never influences the result.  Two runs whose standard
input differs only in what follows the alphabet token `a` (the length limits `l1` and
`l2`) end with the same standard output and the same exit code. -/
theorem main_ignores_longitud (ws a sep l1 l2 : CString) (hws : isBlank ws = true)
    (ha : isToken a = true) (hsep : isBlank sep = true) (hne : sep ≠ []) :
    ∃ run, main (ws ++ a ++ sep ++ l1) = some run ∧ main (ws ++ a ++ sep ++ l2) = some run :=
  ⟨_, main_token ws a sep l1 hws ha hsep hne, main_token ws a sep l2 hws ha hsep hne⟩

theorem main_ignores_longitud_witness :
    isBlank [32] = true ∧ isToken [97, 98] = true ∧ isBlank [10] = true
      ∧ ([10] : CString) ≠ []
      ∧ ∃ run, main ([32] ++ [97, 98] ++ [10] ++ [51, 10]) = some run
          ∧ main ([32] ++ [97, 98] ++ [10] ++ [49, 50, 10]) = some run :=
  ⟨by decide, by decide, by decide, by decide,
    main_ignores_longitud [32] [97, 98] [10] [51, 10] [49, 50, 10]
      (by decide) (by decide) (by decide) (by decide)⟩

/-- Claim C9: the algorithm of the specification agrees with the reference definition
and with the code.  Started at `lo = 0`, `hi = length - 1` on a copy of `s`, the
two-pointer swap loop ends with the original still equal to `s` and the copy equal to
the sequence whose `i`-th element is `s[length-1-i]`; that sequence is the list
reversal of `s`; and the body of `reverseString` ends in the same state. -/
theorem twoPointerReverse_refines (s : CString) :
    twoPointerReverse s = some (s, refReverse s)
      ∧ refReverse s = s.reverse
      ∧ reverseStringBody s = some { str := s, reversed := refReverse s }
      ∧ reverseString s = some (refReverse s) := by
  rw [refReverse_eq]
  exact ⟨twoPointerReverse_eq s, rfl, reverseStringBody_eq s, reverseString_eq s⟩

/-- Claim C10: `reverseString` is an anti-homomorphism for concatenation: the result on
`s ++ t` is the result on `t` followed by the result on `s`. -/
theorem reverseString_append (s t : CString) :
    ∃ rs rt, reverseString s = some rs ∧ reverseString t = some rt
      ∧ reverseString (s ++ t) = some (rt ++ rs) := by
  refine ⟨s.reverse, t.reverse, reverseString_eq s, reverseString_eq t, ?_⟩
  rw [reverseString_eq, List.reverse_append]

end P1
